import Mathlib

/-!
Verification development for the crawl-and-graph engine of
`crawler_script.py`: URL canonicalization (`normalize_url`), the crawl
frontier / graph builder (`crawl_site`), and the flow enumerator
(`generate_flows`).

Strings are modelled as `List Char` (`Str`).  The Python standard-library
functions used by the source (`urllib.parse.urljoin` / `urlparse` /
`urlunparse`, `str.strip`, `str.replace`, `str.startswith`, `str.endswith`,
regular-expression prefix matching) are modelled faithfully: the full
Unicode whitespace set of `str.strip`, and the CPython splitting algorithm
of `urlsplit`/`urlparse`/`urlunparse`/`urljoin` (including removal of
tab/CR/LF, left-stripping of C0-control-or-space characters, and the
`;params` component split from the last path segment for `uses_params`
schemes), without the bracketed-IPv6 `ValueError` paths.  The browser
automation layer is modelled as an oracle `links : Str → List Str` giving
the raw `href` attributes found on each page.
-/

namespace Crawler

abbrev Str := List Char

/-- Characters removed by Python's `str.strip()`: the Unicode whitespace
set of `Py_UNICODE_ISSPACE` (0x09–0x0D, 0x1C–0x1F, space, NEL, NBSP,
Ogham space mark, the 0x2000–0x200A range, line/paragraph separators,
narrow no-break space, medium mathematical space, ideographic space). -/
def pyIsSpace (c : Char) : Bool :=
  c == ' ' || c == '\t' || c == '\n' || c == '\x0b' || c == '\x0c' || c == '\r' ||
  c == '\x1c' || c == '\x1d' || c == '\x1e' || c == '\x1f' ||
  c == '\x85' || c == '\xa0' || c == '\u1680' ||
  c == '\u2000' || c == '\u2001' || c == '\u2002' || c == '\u2003' ||
  c == '\u2004' || c == '\u2005' || c == '\u2006' || c == '\u2007' ||
  c == '\u2008' || c == '\u2009' || c == '\u200a' ||
  c == '\u2028' || c == '\u2029' || c == '\u202f' || c == '\u205f' || c == '\u3000'

/-- Python `str.strip()`. -/
def pyStrip (s : Str) : Str :=
  ((s.dropWhile pyIsSpace).reverse.dropWhile pyIsSpace).reverse

/-- Lower-case a string character-wise (ASCII, as in Python `str.lower()`
on the scheme strings that occur here). -/
def lowerStr (s : Str) : Str := s.map Char.toLower

/-- Model of the module-level regex `INVALID_SCHEMES =
re.compile(r'^(mailto:|tel:|javascript:|#)', re.I)` applied with `.match`
(anchored, case-insensitive). -/
def invalidScheme (link : Str) : Bool :=
  let low := lowerStr link
  ("mailto:".data.isPrefixOf low) || ("tel:".data.isPrefixOf low) ||
    ("javascript:".data.isPrefixOf low) || ("#".data.isPrefixOf low)

/-! ### Model of `urllib.parse.urlsplit` / `urlunsplit` / `urljoin` -/

/-- Result of `urlsplit` (the `;params` component is not modelled; the
source never touches it). -/
structure UrlParts where
  scheme : Str
  netloc : Str
  path : Str
  query : Str
  fragment : Str
deriving DecidableEq

/-- CPython `scheme_chars`. -/
def schemeChar (c : Char) : Bool :=
  c.isAlpha || c.isDigit || c == '+' || c == '-' || c == '.'

/-- WHATWG C0-control-or-space class: CPython left-strips these from the
URL before splitting. -/
def isC0OrSpace (c : Char) : Bool := c ≤ ' '

/-- CPython removes tab, CR and LF anywhere in the URL before splitting
(`_UNSAFE_URL_BYTES_TO_REMOVE`). -/
def removeCtl (s : Str) : Str :=
  s.filter (fun c => !(c == '\t' || c == '\r' || c == '\n'))

/-- Scheme detection of CPython `urlsplit`: split at the first `':'` if the
part before it is a non-empty run of scheme characters starting with a
letter; otherwise keep the default scheme. -/
def splitScheme (url dflt : Str) : Str × Str :=
  let pre := url.takeWhile (fun c => c != ':')
  match url.dropWhile (fun c => c != ':') with
  | [] => (dflt, url)
  | _ :: rest =>
    match pre with
    | [] => (dflt, url)
    | c :: _ =>
      if c.isAlpha && pre.all schemeChar then (lowerStr pre, rest) else (dflt, url)

def netlocStop (c : Char) : Bool := c == '/' || c == '?' || c == '#'

/-- CPython `_splitnetloc`: if the (scheme-stripped) URL starts with `//`,
the netloc runs up to the first `/`, `?` or `#`. -/
def splitNetloc (url : Str) : Str × Str :=
  if url.take 2 = "//".data then
    let rest := url.drop 2
    (rest.takeWhile (fun c => !netlocStop c), rest.dropWhile (fun c => !netlocStop c))
  else ([], url)

/-- `url.split('#', 1)` guarded by `'#' in url` (allow_fragments is always
true in the source). -/
def splitFragment (url : Str) : Str × Str :=
  if '#' ∈ url then
    (url.takeWhile (fun c => c != '#'), (url.dropWhile (fun c => c != '#')).tail)
  else (url, [])

/-- `url.split('?', 1)` guarded by `'?' in url`. -/
def splitQuery (url : Str) : Str × Str :=
  if '?' ∈ url then
    (url.takeWhile (fun c => c != '?'), (url.dropWhile (fun c => c != '?')).tail)
  else (url, [])

/-- Model of CPython `urlsplit(url, scheme=dflt, allow_fragments=True)`. -/
def urlsplit (url0 dflt : Str) : UrlParts :=
  let url1 := (url0.dropWhile isC0OrSpace)
  let d1 := ((dflt.dropWhile isC0OrSpace).reverse.dropWhile isC0OrSpace).reverse
  let url2 := removeCtl url1
  let d2 := removeCtl d1
  let sp := splitScheme url2 d2
  let nl := splitNetloc sp.2
  let fr := splitFragment nl.2
  let qu := splitQuery fr.1
  ⟨sp.1, nl.1, qu.1, qu.2, fr.2⟩

/-- Model of CPython `urlunsplit` (= `urlunparse` with empty params). -/
def urlunsplit (p : UrlParts) : Str :=
  let url := p.path
  let url :=
    if p.netloc ≠ [] ∨ (url ≠ [] ∧ url.take 2 = "//".data) then
      "//".data ++ p.netloc ++ (if url ≠ [] ∧ url.head? ≠ some '/' then '/' :: url else url)
    else url
  let url := if p.scheme ≠ [] then p.scheme ++ ':' :: url else url
  let url := if p.query ≠ [] then url ++ '?' :: p.query else url
  let url := if p.fragment ≠ [] then url ++ '#' :: p.fragment else url
  url

/-- CPython `uses_relative`. -/
def usesRelative : List Str :=
  ["".data, "ftp".data, "http".data, "gopher".data, "nntp".data, "imap".data,
   "wais".data, "file".data, "https".data, "shttp".data, "mms".data,
   "prospero".data, "rtsp".data, "rtsps".data, "rtspu".data, "sftp".data,
   "svn".data, "svn+ssh".data, "ws".data, "wss".data]

/-- CPython `uses_netloc`. -/
def usesNetloc : List Str :=
  ["".data, "ftp".data, "http".data, "gopher".data, "nntp".data, "telnet".data,
   "imap".data, "wais".data, "file".data, "mms".data, "https".data,
   "shttp".data, "snews".data, "prospero".data, "rtsp".data, "rtsps".data,
   "rtspu".data, "rsync".data, "svn".data, "svn+ssh".data, "sftp".data,
   "nfs".data, "git".data, "git+ssh".data, "ws".data, "wss".data]

/-- CPython `uses_params`. -/
def usesParams : List Str :=
  ["".data, "ftp".data, "hdl".data, "prospero".data, "http".data, "imap".data,
   "https".data, "shttp".data, "rtsp".data, "rtsps".data, "rtspu".data,
   "sip".data, "sips".data, "mms".data, "sftp".data, "tel".data]

/-- CPython `_splitparams`, reached only when the path contains `';'`: if
the path contains a `'/'`, split at the first `';'` at or after the last
`'/'` (no split if that run has none); otherwise split at the first `';'`. -/
def splitParams (path : Str) : Str × Str :=
  if '/' ∈ path then
    let pre := (path.reverse.dropWhile (fun c => c != '/')).reverse
    let post := (path.reverse.takeWhile (fun c => c != '/')).reverse
    if ';' ∈ post then
      (pre ++ post.takeWhile (fun c => c != ';'),
       (post.dropWhile (fun c => c != ';')).tail)
    else (path, [])
  else
    (path.takeWhile (fun c => c != ';'), (path.dropWhile (fun c => c != ';')).tail)

/-- Model of CPython `urlparse(url, scheme=dflt)`: `urlsplit`, then the
`;params` component split out of the last path segment for `uses_params`
schemes.  Returns the split result (with the params-free path) paired with
the params string. -/
def urlparse (url dflt : Str) : UrlParts × Str :=
  let sp := urlsplit url dflt
  if sp.scheme ∈ usesParams ∧ ';' ∈ sp.path then
    (⟨sp.scheme, sp.netloc, (splitParams sp.path).1, sp.query, sp.fragment⟩,
     (splitParams sp.path).2)
  else (sp, [])

/-- Model of CPython `urlunparse`: re-attach `;params` to the path, then
`urlunsplit`. -/
def urlunparse (p : UrlParts) (params : Str) : Str :=
  if params ≠ [] then
    urlunsplit ⟨p.scheme, p.netloc, p.path ++ ';' :: params, p.query, p.fragment⟩
  else urlunsplit p

/-- Python `path.split('/')`. -/
def splitSlash : Str → List Str
  | [] => [[]]
  | c :: r =>
    if c = '/' then [] :: splitSlash r
    else
      match splitSlash r with
      | [] => [[c]]
      | h :: t => (c :: h) :: t

/-- `'/'.join`. -/
def joinSlash (l : List Str) : Str := List.intercalate ['/'] l

/-- `segments[1:-1] = filter(None, segments[1:-1])`: drop empty segments,
keeping the last element unconditionally (the head is kept by the caller). -/
def keepLastFilter : List Str → List Str
  | [] => []
  | [x] => [x]
  | x :: xs => if x = [] then keepLastFilter xs else x :: keepLastFilter xs

/-- The dot-segment resolution loop of CPython `urljoin` (`resolved_path`),
with the accumulator kept reversed; `'..'` pops (ignoring underflow),
`'.'` is skipped. -/
def resolveSegs : List Str → List Str → List Str
  | [], acc => acc.reverse
  | s :: rest, acc =>
    if s = "..".data then resolveSegs rest acc.tail
    else if s = ".".data then resolveSegs rest acc
    else resolveSegs rest (s :: acc)

/-- Model of CPython `urljoin(base, url)` (allow_fragments true); the
`;params` component of the last path segment is kept out of dot-segment
resolution and re-serialized by `urlunparse`, as in CPython. -/
def urljoin (base url : Str) : Str :=
  if base = [] then url
  else if url = [] then base
  else
    let bp := urlparse base []
    let b := bp.1
    let up := urlparse url b.scheme
    let u := up.1
    if u.scheme ≠ b.scheme ∨ u.scheme ∉ usesRelative then url
    else if u.scheme ∈ usesNetloc ∧ u.netloc ≠ [] then urlunparse u up.2
    else
      let netloc := if u.scheme ∈ usesNetloc then b.netloc else u.netloc
      if u.path = [] ∧ up.2 = [] then
        let query := if u.query = [] then b.query else u.query
        urlunparse ⟨u.scheme, netloc, b.path, query, u.fragment⟩ bp.2
      else
        let segments :=
          if u.path.head? = some '/' then splitSlash u.path
          else
            let baseParts := splitSlash b.path
            let baseParts :=
              if baseParts.getLast? ≠ some [] then baseParts.dropLast else baseParts
            match baseParts ++ splitSlash u.path with
            | [] => []
            | a :: rest => a :: keepLastFilter rest
        let resolved := resolveSegs segments []
        let resolved :=
          if segments.getLast? = some ".".data ∨ segments.getLast? = some "..".data
          then resolved ++ [[]] else resolved
        let newPath := joinSlash resolved
        urlunparse ⟨u.scheme, netloc, if newPath = [] then "/".data else newPath,
                    u.query, u.fragment⟩ up.2

/-! ### `normalize_url` (crawler_script.py lines 70–115) -/

/-- `re.sub(r'\/\/+', '/', path)`: collapse runs of slashes. -/
def collapseSlashes : Str → Str
  | [] => []
  | [c] => [c]
  | a :: b :: rest =>
    if a = '/' ∧ b = '/' then collapseSlashes (b :: rest)
    else a :: collapseSlashes (b :: rest)

/-- Lines 105–111: `path = parsed.path or "/"`, collapse duplicate slashes,
strip a trailing slash from a non-root path. -/
def normPath (p : Str) : Str :=
  let p1 := if p = [] then "/".data else p
  let p2 := collapseSlashes p1
  if p2 ≠ "/".data ∧ p2.getLast? = some '/' then p2.dropLast else p2

/-- Lines 88–115 of `normalize_url` after the absolute URL is formed:
scheme restriction, domain scope check, fragment strip, path normalization
(the `;params` component is untouched, as in `urlparse`), re-serialization
with `urlunparse`. -/
def canonicalizeParts (domain : Str) (pp : UrlParts × Str) : Option Str :=
  if ¬(pp.1.scheme = "http".data ∨ pp.1.scheme = "https".data) then none
  else if ¬(pp.1.netloc = domain ∨ ('.' :: domain).IsSuffix pp.1.netloc) then none
  else some (urlunparse ⟨pp.1.scheme, pp.1.netloc, normPath pp.1.path, pp.1.query, []⟩ pp.2)

/-- `normalize_url(base, link)` with the global `DOMAIN` made explicit. -/
def normalize_url (domain base link : Str) : Option Str :=
  if link = [] then none
  else if invalidScheme (pyStrip link) then none
  else canonicalizeParts domain (urlparse (urljoin base (pyStrip link)) [])

/-! ### `generate_flows` (crawler_script.py lines 422–454)

The crawl graph `site_graph` is modelled as a function `Str → List Str`
giving the out-neighbour set of each page (`[]` for a missing key, matching
the falsiness of both `None` and an empty set in `site_graph.get(current)`).
The Python stack (`list.append`/`list.pop` at the right end) is modelled
with the list head as the stack top. -/

/-- Python string comparison `a <= b` (by code points). -/
def lexLe : Str → Str → Bool
  | [], _ => true
  | _ :: _, [] => false
  | a :: as_, b :: bs => if a = b then lexLe as_ bs else decide (a < b)

def insertLex (x : Str) : List Str → List Str
  | [] => [x]
  | y :: ys => if lexLe x y then x :: y :: ys else y :: insertLex x ys

/-- `neighbors.sort()`: ascending stable sort. -/
def sortLex (l : List Str) : List Str := l.foldr insertLex []

/-- The `while stack and len(all_flows) < max_flows` loop of
`generate_flows`.  A popped path is emitted when the depth limit is reached
or the node has no outgoing edges; otherwise each neighbour not already on
the path is pushed.  `seen` models `seen_count`, the explosion guard. -/
def flow_loop (graph : Str → List Str) (maxDepth maxFlows : Nat) :
    List (Str × List Str) → List (List Str) → Nat → List (List Str)
  | [], flows, _ => flows
  | (current, path) :: rest, flows, seen =>
    if _h1 : maxFlows ≤ flows.length then flows
    else if maxDepth ≤ path.length - 1 ∨ graph current = [] then
      flow_loop graph maxDepth maxFlows rest (flows ++ [path]) seen
    else if _h2 : maxFlows * 10 < seen + 1 then flows
    else
      flow_loop graph maxDepth maxFlows
        ((((sortLex (graph current)).filter (fun n => n ∉ path)).map
          (fun n => (n, path ++ [n]))).reverse ++ rest) flows (seen + 1)
  termination_by stack _ seen => (maxFlows * 10 + 1 - seen, stack.length)
  decreasing_by
  · apply Prod.Lex.right
    simp
  · apply Prod.Lex.left
    omega

/-- `generate_flows(start_url, max_depth, max_flows)`; the graph and the
global `DOMAIN` are explicit parameters. -/
def generate_flows (graph : Str → List Str) (domain startUrl : Str)
    (maxDepth maxFlows : Nat) : List (List Str) :=
  match normalize_url domain startUrl startUrl with
  | none => []
  | some start =>
    if start = [] then []
    else flow_loop graph maxDepth maxFlows [(start, [start])] [] 0

/-! ### `crawl_site` (crawler_script.py lines 296–416)

The browser is abstracted as an oracle `links : Str → List Str` returning
the raw `href` strings found on a page (`page.eval_on_selector_all`); CTA
and form extraction, screenshots and status publication do not touch the
visited set, queue or graph and are not modelled.  The state is the FIFO
queue of `(url, depth)` pairs, the visited set (as a duplicate-free list in
insertion order) and the graph (as an association list in insertion order,
each value a duplicate-free list). -/

structure CrawlOut where
  visited : List Str
  graph : List (Str × List Str)
deriving DecidableEq

/-- `site_graph[url].add(link)`. -/
def graphAdd (url link : Str) : List (Str × List Str) → List (Str × List Str)
  | [] => [(url, [link])]
  | (k, s) :: rest =>
    if k = url then (k, if link ∈ s then s else s ++ [link]) :: rest
    else (k, s) :: graphAdd url link rest

/-- The `for link in links:` loop (lines 397–400): add the edge to the
graph unconditionally, enqueue the link if unvisited and the
`len(visited) + len(queue) < max_pages` admission check passes. -/
def processLinks (maxPages : Nat) (url : Str) (depth : Nat) (visited : List Str) :
    List Str → List (Str × Nat) → List (Str × List Str) →
    List (Str × Nat) × List (Str × List Str)
  | [], queue, graph => (queue, graph)
  | link :: ls, queue, graph =>
    let graph1 := graphAdd url link graph
    let queue1 :=
      if link ∉ visited ∧ visited.length + queue.length < maxPages then
        queue ++ [(link, depth + 1)]
      else queue
    processLinks maxPages url depth visited ls queue1 graph1

/-- Lines 386–394: the raw hrefs of the page, normalized against the page
URL, dropping failures and links already visited (`visited` here already
contains the page itself, as `visited.add(url)` ran at line 342). -/
def pageLinks (links : Str → List Str) (domain : Str) (visited : List Str)
    (url : Str) : List Str :=
  (links url).filterMap (fun raw =>
    match normalize_url domain url raw with
    | none => none
    | some full => if full = [] then none
                   else if full ∈ visited then none else some full)

/-- The `while queue and len(visited) < max_pages` loop (lines 338–403):
pop, drop already-visited entries, mark visited, collect the normalized
in-scope unvisited links of the page, extend graph and queue. -/
def crawl_loop (links : Str → List Str) (domain : Str) (maxPages : Nat) :
    List (Str × Nat) → List Str → List (Str × List Str) → CrawlOut
  | [], visited, graph => ⟨visited, graph⟩
  | (url, depth) :: rest, visited, graph =>
    if _h1 : maxPages ≤ visited.length then ⟨visited, graph⟩
    else if url ∈ visited then crawl_loop links domain maxPages rest visited graph
    else
      crawl_loop links domain maxPages
        (processLinks maxPages url depth (visited ++ [url])
          (pageLinks links domain (visited ++ [url]) url) rest graph).1
        (visited ++ [url])
        (processLinks maxPages url depth (visited ++ [url])
          (pageLinks links domain (visited ++ [url]) url) rest graph).2
  termination_by queue visited _ => (maxPages - visited.length, queue.length)
  decreasing_by
  · apply Prod.Lex.right
    simp
  · apply Prod.Lex.left
    simp only [List.length_append, List.length_cons, List.length_nil]
    omega

/-- Lines 319–324: normalize the seed against itself; on failure fall back
to the raw seed. -/
def seedNorm (prevDomain s1 : Str) : Str :=
  match normalize_url prevDomain s1 s1 with
  | none => s1
  | some v => if v = [] then s1 else v

/-- Python `str.replace("www.", "")` specialised: delete every leftmost
non-overlapping occurrence of `"www."`. -/
def replaceWww : Str → Str
  | 'w' :: 'w' :: 'w' :: '.' :: rest => replaceWww rest
  | c :: rest => c :: replaceWww rest
  | [] => []

/-- Lines 326–329: `DOMAIN = urlparse(start_norm).netloc.replace("www.", "")`,
where `start_norm` came from `seedNorm` (which used the previous global
`DOMAIN`, here `prevDomain`). -/
def crawl_domain (prevDomain s1 : Str) : Str :=
  replaceWww (urlsplit (seedNorm prevDomain s1) []).netloc

/-- The body of `crawl_site` from line 303 on, taking the already
scheme-prefixed seed `s1`. -/
def crawl_main (links : Str → List Str) (prevDomain s1 : Str) (maxPages : Nat) :
    CrawlOut :=
  crawl_loop links (crawl_domain prevDomain s1) maxPages [(seedNorm prevDomain s1, 0)] [] []

/-- `crawl_site(start_url, max_pages)`: lines 296–301 prepend `https://`
to a seed not starting with `"http"`, then run the main loop. -/
def crawl_site (links : Str → List Str) (prevDomain startUrl : Str)
    (maxPages : Nat) : CrawlOut :=
  crawl_main links prevDomain
    (if "http".data.isPrefixOf startUrl then startUrl else "https://".data ++ startUrl)
    maxPages

/-! ### Fixtures used by concrete scenarios -/

/-- The crawl domain `example.com` of the concrete scenarios. -/
def exDomain : Str := "example.com".data

def exA : Str := "https://example.com/a".data

def exB : Str := "https://example.com/b".data

/-- The two-node cyclic graph of the spec scenario: A links only to B and
B links only to A. -/
def cycleGraph : Str → List Str :=
  fun u => if u = exA then [exB] else if u = exB then [exA] else []

/-- A graph with no edges at all. -/
def emptyGraph : Str → List Str := fun _ => []

/-- Link oracle for the concrete crawl run: page A carries one relative
link `/b`; other pages carry none. -/
def exLinks : Str → List Str := fun u => if u = exA then ["/b".data] else []

/-- Modelled from the spec claim of C9 only (for comparison with the code):
strip a single leading `"www."` label from a host, leaving the rest
untouched. -/
def stripLeadingWww (h : Str) : Str :=
  if "www.".data.isPrefixOf h then h.drop 4 else h

/-- The seed's host as the code reads it: `urlparse(start_norm).netloc`
(line 327). -/
def seedHost (prevDomain s1 : Str) : Str :=
  (urlsplit (seedNorm prevDomain s1) []).netloc

/-- The module-level initial `DOMAIN` (lines 19-20). -/
def initDomain : Str := "health-ee.netlify.app".data

/-! ### Notions used by the canonicalization idempotence analysis (C2) -/


/-- No two adjacent slashes. -/
def noDS : Str → Bool
  | [] => true
  | [_] => true
  | a :: b :: r => !(a == '/' && b == '/') && noDS (b :: r)

/-- The slash prepended by `urlunsplit` when a netloc is present and the
path does not already start with one. -/
def addSlash (p : Str) : Str :=
  if p ≠ [] ∧ p.head? ≠ some '/' then '/' :: p else p

/-- Postconditions of `urlsplit` on every input: the netloc contains no
`/`, `?`, `#`; the path no `?`, `#`; the query no `#`; and none of the
three contains a tab, CR or LF. -/
def goodParts (P : UrlParts) : Prop :=
  ('/' ∉ P.netloc ∧ '?' ∉ P.netloc ∧ '#' ∉ P.netloc) ∧
  ('?' ∉ P.path ∧ '#' ∉ P.path) ∧
  ('#' ∉ P.query) ∧
  ('\t' ∉ P.netloc ∧ '\r' ∉ P.netloc ∧ '\n' ∉ P.netloc) ∧
  ('\t' ∉ P.path ∧ '\r' ∉ P.path ∧ '\n' ∉ P.path) ∧
  ('\t' ∉ P.query ∧ '\r' ∉ P.query ∧ '\n' ∉ P.query)

/-! ### Lemmas for the canonicalization idempotence analysis (C2) -/

theorem takeWhile_append_eq (p : Char → Bool) (l r : Str)
    (h1 : ∀ c ∈ l, p c = true)
    (h2 : ∀ c, r.head? = some c → p c = false) :
    (l ++ r).takeWhile p = l ∧ (l ++ r).dropWhile p = r := by
  induction l with
  | nil =>
    simp only [List.nil_append]
    cases r with
    | nil => simp
    | cons a t =>
      have := h2 a rfl
      constructor
      · simp [List.takeWhile_cons, this]
      · simp [List.dropWhile_cons, this]
  | cons a l ih =>
    have ha := h1 a (List.mem_cons_self _ _)
    have ih2 := ih (fun c hc => h1 c (List.mem_cons_of_mem _ hc))
    constructor
    · rw [List.cons_append, List.takeWhile_cons, ha]
      simp only [if_true]
      rw [ih2.1]
    · rw [List.cons_append, List.dropWhile_cons, ha]
      simp only [if_true]
      exact ih2.2

theorem not_mem_of_sublist {c : Char} {l m : Str} (hs : List.Sublist l m)
    (h : c ∉ m) : c ∉ l := fun hc => h (hs.subset hc)

theorem splitScheme_snd_sublist (u d : Str) :
    List.Sublist (splitScheme u d).2 u := by
  unfold splitScheme
  cases hd : u.dropWhile (fun c => c != ':') with
  | nil => simp
  | cons a rest =>
    cases hp : u.takeWhile (fun c => c != ':') with
    | nil =>
      simp only
      exact List.Sublist.refl u
    | cons c pre =>
      simp only
      by_cases hc : (c.isAlpha && (c :: pre).all schemeChar) = true
      · rw [if_pos hc]
        simp only
        have h1 : List.Sublist rest (a :: rest) := List.sublist_cons_self a rest
        rw [← hd] at h1
        exact h1.trans (List.dropWhile_sublist _)
      · rw [if_neg hc]

theorem splitNetloc_fst_stops (u : Str) :
    ∀ c ∈ (splitNetloc u).1, netlocStop c = false := by
  unfold splitNetloc
  by_cases h : u.take 2 = "//".data
  · rw [if_pos h]
    intro c hc
    have := List.mem_takeWhile_imp hc
    simpa using this
  · rw [if_neg h]
    intro c hc
    simp at hc

theorem splitNetloc_sublists (u : Str) :
    List.Sublist (splitNetloc u).1 u ∧ List.Sublist (splitNetloc u).2 u := by
  unfold splitNetloc
  by_cases h : u.take 2 = "//".data
  · rw [if_pos h]
    constructor
    · exact ((List.takeWhile_sublist _).trans (List.drop_sublist 2 u))
    · exact ((List.dropWhile_sublist _).trans (List.drop_sublist 2 u))
  · rw [if_neg h]
    exact ⟨List.nil_sublist u, List.Sublist.refl u⟩

theorem splitFragment_fst (u : Str) :
    '#' ∉ (splitFragment u).1 ∧ List.Sublist (splitFragment u).1 u ∧
      List.Sublist (splitFragment u).2 u := by
  unfold splitFragment
  by_cases h : '#' ∈ u
  · rw [if_pos h]
    refine ⟨?_, List.takeWhile_sublist _, (List.tail_sublist _).trans (List.dropWhile_sublist _)⟩
    intro hc
    have := List.mem_takeWhile_imp hc
    simp at this
  · rw [if_neg h]
    exact ⟨h, List.Sublist.refl u, List.nil_sublist u⟩

theorem splitQuery_fst (u : Str) :
    '?' ∉ (splitQuery u).1 ∧ List.Sublist (splitQuery u).1 u ∧
      List.Sublist (splitQuery u).2 u := by
  unfold splitQuery
  by_cases h : '?' ∈ u
  · rw [if_pos h]
    refine ⟨?_, List.takeWhile_sublist _, (List.tail_sublist _).trans (List.dropWhile_sublist _)⟩
    intro hc
    have := List.mem_takeWhile_imp hc
    simp at this
  · rw [if_neg h]
    exact ⟨h, List.Sublist.refl u, List.nil_sublist u⟩

theorem removeCtl_not_mem (s : Str) :
    '\t' ∉ removeCtl s ∧ '\r' ∉ removeCtl s ∧ '\n' ∉ removeCtl s := by
  refine ⟨?_, ?_, ?_⟩ <;>
  · intro h
    have := List.of_mem_filter h
    simp at this

theorem parts_good (s u2 r : Str) (hr : List.Sublist r u2)
    (hctl : '\t' ∉ u2 ∧ '\r' ∉ u2 ∧ '\n' ∉ u2) :
    goodParts ⟨s, (splitNetloc r).1,
               (splitQuery (splitFragment (splitNetloc r).2).1).1,
               (splitQuery (splitFragment (splitNetloc r).2).1).2,
               (splitFragment (splitNetloc r).2).2⟩ := by
  have hnl := splitNetloc_sublists r
  have hnl1 : List.Sublist (splitNetloc r).1 u2 := hnl.1.trans hr
  have hfr := splitFragment_fst (splitNetloc r).2
  have hqu := splitQuery_fst (splitFragment (splitNetloc r).2).1
  have hpathu2 : List.Sublist (splitQuery (splitFragment (splitNetloc r).2).1).1 u2 :=
    ((hqu.2.1.trans hfr.2.1).trans hnl.2).trans hr
  have hquu2 : List.Sublist (splitQuery (splitFragment (splitNetloc r).2).1).2 u2 :=
    ((hqu.2.2.trans hfr.2.1).trans hnl.2).trans hr
  refine ⟨⟨?_, ?_, ?_⟩, ⟨hqu.1, ?_⟩, ?_, ?_, ?_, ?_⟩
  · intro h
    have := splitNetloc_fst_stops _ _ h
    simp [netlocStop] at this
  · intro h
    have := splitNetloc_fst_stops _ _ h
    simp [netlocStop] at this
  · intro h
    have := splitNetloc_fst_stops _ _ h
    simp [netlocStop] at this
  · exact not_mem_of_sublist hqu.2.1 hfr.1
  · exact not_mem_of_sublist hqu.2.2 hfr.1
  · exact ⟨not_mem_of_sublist hnl1 hctl.1, not_mem_of_sublist hnl1 hctl.2.1,
      not_mem_of_sublist hnl1 hctl.2.2⟩
  · exact ⟨not_mem_of_sublist hpathu2 hctl.1, not_mem_of_sublist hpathu2 hctl.2.1,
      not_mem_of_sublist hpathu2 hctl.2.2⟩
  · exact ⟨not_mem_of_sublist hquu2 hctl.1, not_mem_of_sublist hquu2 hctl.2.1,
      not_mem_of_sublist hquu2 hctl.2.2⟩

theorem urlsplit_good (u d : Str) : goodParts (urlsplit u d) :=
  parts_good _ _ _
    (splitScheme_snd_sublist (removeCtl (u.dropWhile isC0OrSpace)) _)
    (removeCtl_not_mem _)

theorem splitParams_fst_sublist (p : Str) : List.Sublist (splitParams p).1 p := by
  unfold splitParams
  by_cases h1 : '/' ∈ p
  · rw [if_pos h1]
    dsimp only
    by_cases h2 : ';' ∈ (p.reverse.takeWhile (fun c => c != '/')).reverse
    · rw [if_pos h2]
      have hsplit : (p.reverse.dropWhile (fun c => c != '/')).reverse ++
          (p.reverse.takeWhile (fun c => c != '/')).reverse = p := by
        rw [← List.reverse_append, List.takeWhile_append_dropWhile, List.reverse_reverse]
      conv_rhs => rw [← hsplit]
      exact List.Sublist.append_left (List.takeWhile_sublist _) _
    · rw [if_neg h2]
  · rw [if_neg h1]
    exact List.takeWhile_sublist _

theorem urlparse_good (u d : Str) : goodParts (urlparse u d).1 := by
  have hg := urlsplit_good u d
  unfold urlparse
  by_cases h : (urlsplit u d).scheme ∈ usesParams ∧ ';' ∈ (urlsplit u d).path
  · rw [if_pos h]
    obtain ⟨hn, ⟨hp1, hp2⟩, hq, hnb, hpb, hqb⟩ := hg
    have hs := splitParams_fst_sublist (urlsplit u d).path
    exact ⟨hn, ⟨not_mem_of_sublist hs hp1, not_mem_of_sublist hs hp2⟩, hq, hnb,
      ⟨not_mem_of_sublist hs hpb.1, not_mem_of_sublist hs hpb.2.1,
        not_mem_of_sublist hs hpb.2.2⟩, hqb⟩
  · rw [if_neg h]
    exact hg

theorem urlparse_of_no_semi (u d : Str) (h : ';' ∉ (urlsplit u d).path) :
    urlparse u d = (urlsplit u d, []) := by
  unfold urlparse
  rw [if_neg (fun hc => h hc.2)]

theorem urlunparse_nil (p : UrlParts) : urlunparse p [] = urlunsplit p := by
  unfold urlunparse
  rw [if_neg (by simp)]

theorem mem_urlunsplit_path {c : Char} (P : UrlParts) (hc : c ∈ P.path) :
    c ∈ urlunsplit P := by
  obtain ⟨s, n, p, q, f⟩ := P
  simp only at hc
  unfold urlunsplit
  dsimp only
  split_ifs <;> simp_all [List.mem_append]

theorem collapse_ne_nil : ∀ l : Str, l ≠ [] → collapseSlashes l ≠ []
  | [], h => absurd rfl h
  | [c], _ => by simp [collapseSlashes]
  | a :: b :: r, _ => by
    unfold collapseSlashes
    by_cases h : a = '/' ∧ b = '/'
    · rw [if_pos h]
      exact collapse_ne_nil (b :: r) (by simp)
    · rw [if_neg h]
      simp

theorem collapse_sublist : ∀ l : Str, List.Sublist (collapseSlashes l) l
  | [] => by simp [collapseSlashes]
  | [c] => by simp [collapseSlashes]
  | a :: b :: r => by
    unfold collapseSlashes
    by_cases h : a = '/' ∧ b = '/'
    · rw [if_pos h]
      refine (collapse_sublist (b :: r)).trans ?_
      exact List.sublist_cons_self a (b :: r)
    · rw [if_neg h]
      exact (collapse_sublist (b :: r)).cons₂ a

theorem collapse_head : ∀ l : Str, (collapseSlashes l).head? = l.head?
  | [] => rfl
  | [c] => rfl
  | a :: b :: r => by
    unfold collapseSlashes
    by_cases h : a = '/' ∧ b = '/'
    · rw [if_pos h]
      rw [collapse_head (b :: r)]
      simp [h.1, h.2]
    · rw [if_neg h]
      simp

theorem noDS_collapse : ∀ l : Str, noDS (collapseSlashes l) = true
  | [] => rfl
  | [c] => rfl
  | a :: b :: r => by
    unfold collapseSlashes
    by_cases h : a = '/' ∧ b = '/'
    · rw [if_pos h]
      exact noDS_collapse (b :: r)
    · rw [if_neg h]
      have hr := noDS_collapse (b :: r)
      cases hcb : collapseSlashes (b :: r) with
      | nil => simp [noDS]
      | cons x xs =>
        have hx : x = b := by
          have hh := collapse_head (b :: r)
          rw [hcb] at hh
          simpa using hh
        rw [hcb] at hr
        rw [hx] at hr
        unfold noDS
        rw [hx]
        simp only [Bool.and_eq_true, hr, and_true, Bool.not_eq_true]
        by_cases ha : a = '/'
        · have hb : ¬ b = '/' := fun hb => h ⟨ha, hb⟩
          simp [ha, hb]
        · simp [ha]

theorem collapse_of_noDS : ∀ l : Str, noDS l = true → collapseSlashes l = l
  | [], _ => rfl
  | [c], _ => rfl
  | a :: b :: r, h => by
    unfold noDS at h
    simp only [Bool.and_eq_true, Bool.not_eq_true] at h
    unfold collapseSlashes
    have hab : ¬(a = '/' ∧ b = '/') := by
      intro hc
      rw [hc.1, hc.2] at h
      simp at h
    rw [if_neg hab, collapse_of_noDS (b :: r) h.2]

theorem noDS_dropLast : ∀ l : Str, noDS l = true → noDS l.dropLast = true
  | [], _ => rfl
  | [c], _ => rfl
  | a :: b :: r, h => by
    unfold noDS at h
    simp only [Bool.and_eq_true] at h
    cases r with
    | nil => simp [noDS]
    | cons x xs =>
      have hd : (a :: b :: x :: xs).dropLast = a :: (b :: x :: xs).dropLast := rfl
      rw [hd]
      have htl := noDS_dropLast (b :: x :: xs) h.2
      have hbd : (b :: x :: xs).dropLast = b :: (x :: xs).dropLast := rfl
      rw [hbd] at htl ⊢
      unfold noDS
      simp only [Bool.and_eq_true]
      exact ⟨h.1, htl⟩

theorem noDS_last_dropLast : ∀ l : Str, noDS l = true → l.getLast? = some '/' →
    l.dropLast = [] ∨ l.dropLast.getLast? ≠ some '/'
  | [], _, hl => by simp at hl
  | [c], _, _ => Or.inl rfl
  | a :: b :: r, h, hl => by
    unfold noDS at h
    simp only [Bool.and_eq_true, Bool.not_eq_true] at h
    cases r with
    | nil =>
      right
      have hb : b = '/' := by simpa using hl
      have ha : ¬ a = '/' := by
        intro ha
        rw [ha, hb] at h
        simp at h
      simpa using ha
    | cons x xs =>
      right
      have hl2 : (b :: x :: xs).getLast? = some '/' := by
        simpa using hl
      have := noDS_last_dropLast (b :: x :: xs) h.2 hl2
      rcases this with h3 | h3
      · simp at h3
      · have hd : (a :: b :: x :: xs).dropLast = a :: (b :: x :: xs).dropLast := rfl
        rw [hd]
        cases hcb : (b :: x :: xs).dropLast with
        | nil => simp at hcb
        | cons y ys =>
          rw [hcb] at h3
          rw [List.getLast?_cons_cons]
          exact h3

theorem dropLast_ne_nil_of {l : Str} (h : l.getLast? = some '/')
    (h2 : l ≠ ['/']) : l.dropLast ≠ [] := by
  match l with
  | [] => simp at h
  | [c] =>
    have : c = '/' := by simpa using h
    exact absurd (by rw [this]) h2
  | a :: b :: r => simp

theorem normPath_ne_nil (p : Str) : normPath p ≠ [] := by
  unfold normPath
  have hp1 : (if p = [] then "/".data else p) ≠ [] := by
    by_cases h : p = [] <;> simp [h]
  have hp2 := collapse_ne_nil _ hp1
  by_cases hc : collapseSlashes (if p = [] then "/".data else p) ≠ "/".data ∧
      (collapseSlashes (if p = [] then "/".data else p)).getLast? = some '/'
  · rw [if_pos hc]
    exact dropLast_ne_nil_of hc.2 hc.1
  · rw [if_neg hc]
    exact hp2

theorem normPath_noDS (p : Str) : noDS (normPath p) = true := by
  unfold normPath
  by_cases hc : collapseSlashes (if p = [] then "/".data else p) ≠ "/".data ∧
      (collapseSlashes (if p = [] then "/".data else p)).getLast? = some '/'
  · rw [if_pos hc]
    exact noDS_dropLast _ (noDS_collapse _)
  · rw [if_neg hc]
    exact noDS_collapse _

theorem normPath_last (p : Str) :
    normPath p = "/".data ∨ (normPath p).getLast? ≠ some '/' := by
  unfold normPath
  by_cases hc : collapseSlashes (if p = [] then "/".data else p) ≠ "/".data ∧
      (collapseSlashes (if p = [] then "/".data else p)).getLast? = some '/'
  · rw [if_pos hc]
    rcases noDS_last_dropLast _ (noDS_collapse _) hc.2 with h | h
    · exact absurd h (dropLast_ne_nil_of hc.2 hc.1)
    · exact Or.inr h
  · rw [if_neg hc]
    rcases not_and_or.1 hc with h | h
    · exact Or.inl (not_not.1 h)
    · exact Or.inr h

theorem normPath_mem (p : Str) : ∀ c ∈ normPath p, c ∈ p ∨ c = '/' := by
  intro c hc
  unfold normPath at hc
  have hsub : List.Sublist (normPath p) (if p = [] then "/".data else p) := by
    unfold normPath
    by_cases h : collapseSlashes (if p = [] then "/".data else p) ≠ "/".data ∧
        (collapseSlashes (if p = [] then "/".data else p)).getLast? = some '/'
    · rw [if_pos h]
      exact (List.dropLast_sublist _).trans (collapse_sublist _)
    · rw [if_neg h]
      exact collapse_sublist _
  have hm : c ∈ (if p = [] then "/".data else p) := by
    refine hsub.subset ?_
    unfold normPath
    exact hc
  by_cases h : p = []
  · rw [if_pos h] at hm
    right
    simpa using hm
  · rw [if_neg h] at hm
    exact Or.inl hm

theorem normPath_fix (p : Str) (h1 : noDS p = true) (h2 : p ≠ [])
    (h3 : p = "/".data ∨ p.getLast? ≠ some '/') : normPath p = p := by
  unfold normPath
  dsimp only
  rw [if_neg h2, collapse_of_noDS p h1]
  rcases h3 with h | h
  · rw [if_neg (fun hcon => hcon.1 h)]
  · rw [if_neg (fun hcon => h hcon.2)]

theorem addSlash_ne_nil (p : Str) (h : p ≠ []) : addSlash p ≠ [] := by
  unfold addSlash
  by_cases hp : p ≠ [] ∧ p.head? ≠ some '/'
  · rw [if_pos hp]
    simp
  · rw [if_neg hp]
    exact h

theorem addSlash_head (p : Str) (h : p ≠ []) : (addSlash p).head? = some '/' := by
  unfold addSlash
  by_cases hp : p ≠ [] ∧ p.head? ≠ some '/'
  · rw [if_pos hp]
    rfl
  · rw [if_neg hp]
    rcases not_and_or.1 hp with h2 | h2
    · exact absurd (not_not.1 h2) h
    · exact not_not.1 h2

theorem addSlash_idem (p : Str) : addSlash (addSlash p) = addSlash p := by
  by_cases h : p = []
  · rw [h]
    rfl
  · have h1 := addSlash_head p h
    show (if addSlash p ≠ [] ∧ (addSlash p).head? ≠ some '/' then '/' :: addSlash p
          else addSlash p) = addSlash p
    rw [if_neg (fun hcon => hcon.2 h1)]

theorem addSlash_mem (p : Str) : ∀ c ∈ addSlash p, c ∈ p ∨ c = '/' := by
  intro c hc
  unfold addSlash at hc
  by_cases hp : p ≠ [] ∧ p.head? ≠ some '/'
  · rw [if_pos hp] at hc
    rcases List.mem_cons.1 hc with h | h
    · exact Or.inr h
    · exact Or.inl h
  · rw [if_neg hp] at hc
    exact Or.inl hc

theorem addSlash_getLast (p : Str) (h : p ≠ []) :
    (addSlash p).getLast? = p.getLast? := by
  unfold addSlash
  by_cases hp : p ≠ [] ∧ p.head? ≠ some '/'
  · rw [if_pos hp]
    cases p with
    | nil => exact absurd rfl h
    | cons b r => exact List.getLast?_cons_cons
  · rw [if_neg hp]

theorem addSlash_noDS (p : Str) (h : noDS p = true) : noDS (addSlash p) = true := by
  unfold addSlash
  by_cases hp : p ≠ [] ∧ p.head? ≠ some '/'
  · rw [if_pos hp]
    cases p with
    | nil => rfl
    | cons c r =>
      have hch : ¬ c = '/' := by
        intro hcon
        exact hp.2 (by rw [hcon]; rfl)
      unfold noDS
      simp only [Bool.and_eq_true, Bool.not_eq_true]
      refine ⟨?_, h⟩
      simp [hch]
  · rw [if_neg hp]
    exact h

theorem urlunsplit_eq (s n p q : Str) (hs : s ≠ []) (hn : n ≠ []) :
    urlunsplit ⟨s, n, p, q, []⟩ =
      s ++ ':' :: '/' :: '/' :: (n ++ addSlash p ++ (if q = [] then [] else '?' :: q)) := by
  unfold urlunsplit addSlash
  dsimp only
  rw [if_pos (Or.inl hn), if_pos hs, if_neg (by simp : ¬ ([] : Str) ≠ [])]
  by_cases hq : q = []
  · rw [if_neg (by simp [hq])]
    simp [hq, List.append_assoc]
  · rw [if_pos hq]
    simp [hq, List.append_assoc]

theorem splitScheme_http (r d : Str) :
    splitScheme ('h' :: 't' :: 't' :: 'p' :: ':' :: r) d = ("http".data, r) := rfl

theorem splitScheme_https (r d : Str) :
    splitScheme ('h' :: 't' :: 't' :: 'p' :: 's' :: ':' :: r) d = ("https".data, r) := rfl

theorem splitNetloc_cons (n r : Str) (hn : ∀ c ∈ n, netlocStop c = false)
    (hr : ∀ c, r.head? = some c → netlocStop c = true) :
    splitNetloc ('/' :: '/' :: (n ++ r)) = (n, r) := by
  unfold splitNetloc
  rw [if_pos (show List.take 2 ('/' :: '/' :: (n ++ r)) = "//".data from rfl)]
  have h := takeWhile_append_eq (fun c => !netlocStop c) n r
    (fun c hc => by simp [hn c hc]) (fun c hc => by simp [hr c hc])
  show (List.takeWhile (fun c => !netlocStop c) (n ++ r),
        List.dropWhile (fun c => !netlocStop c) (n ++ r)) = (n, r)
  rw [h.1, h.2]

theorem splitFragment_none (u : Str) (h : '#' ∉ u) : splitFragment u = (u, []) := by
  unfold splitFragment
  rw [if_neg h]

theorem splitQuery_none (u : Str) (h : '?' ∉ u) : splitQuery u = (u, []) := by
  unfold splitQuery
  rw [if_neg h]

theorem splitQuery_split (p q : Str) (hp : '?' ∉ p) :
    splitQuery (p ++ '?' :: q) = (p, q) := by
  unfold splitQuery
  rw [if_pos (by simp)]
  have h := takeWhile_append_eq (fun c => c != '?') p ('?' :: q)
    (fun c hc => by simp only [bne_iff_ne, ne_eq, decide_eq_true_eq]; intro hcon; exact hp (hcon ▸ hc))
    (fun c hc => by simp only [List.head?_cons, Option.some.injEq] at hc; simp [← hc])
  rw [h.1, h.2]
  rfl

theorem urlsplit_build (u dflt S R N R2 P Q F : Str)
    (h0 : u.dropWhile isC0OrSpace = u)
    (h1 : removeCtl u = u)
    (hsp : ∀ d, splitScheme u d = (S, R))
    (hnl : splitNetloc R = (N, R2))
    (hfr : splitFragment R2 = (R2, F))
    (hqu : splitQuery R2 = (P, Q)) :
    urlsplit u dflt = ⟨S, N, P, Q, F⟩ := by
  unfold urlsplit
  dsimp only
  rw [h0, h1, hsp]
  dsimp only
  rw [hnl]
  dsimp only
  rw [hfr]
  dsimp only
  rw [hqu]

theorem invalidScheme_cons_h (t : Str) : invalidScheme ('h' :: t) = false := by
  simp [invalidScheme, lowerStr, List.isPrefixOf]

theorem urlsplit_reparse (s n p q dflt : Str)
    (hs : s = "http".data ∨ s = "https".data)
    (hnstop : ∀ c ∈ n, netlocStop c = false)
    (hnb : '\t' ∉ n ∧ '\r' ∉ n ∧ '\n' ∉ n)
    (hpne : p ≠ []) (hpq : '?' ∉ p) (hpf : '#' ∉ p)
    (hpb : '\t' ∉ p ∧ '\r' ∉ p ∧ '\n' ∉ p)
    (hqf : '#' ∉ q) (hqb : '\t' ∉ q ∧ '\r' ∉ q ∧ '\n' ∉ q) :
    urlsplit (s ++ ':' :: '/' :: '/' ::
        (n ++ addSlash p ++ (if q = [] then [] else '?' :: q))) dflt
      = ⟨s, n, addSlash p, q, []⟩ := by
  have hAmem := addSlash_mem p
  have hAne := addSlash_ne_nil p hpne
  have hAhead := addSlash_head p hpne
  have hqp : ∀ c ∈ (if q = [] then ([] : Str) else '?' :: q), c = '?' ∨ c ∈ q := by
    by_cases hq : q = []
    · rw [if_pos hq]
      intro c hc
      simp at hc
    · rw [if_neg hq]
      intro c hc
      rcases List.mem_cons.1 hc with h | h
      · exact Or.inl h
      · exact Or.inr h
  have hbad : ∀ c ∈ s ++ ':' :: '/' :: '/' ::
      (n ++ addSlash p ++ (if q = [] then [] else '?' :: q)),
      (!(c == '\t' || c == '\r' || c == '\n')) = true := by
    intro c hc
    have hcne : c ≠ '\t' ∧ c ≠ '\r' ∧ c ≠ '\n' := by
      rcases List.mem_append.1 hc with h | h
      · rcases hs with rfl | rfl
        · fin_cases h <;> simp
        · fin_cases h <;> simp
      · rcases List.mem_cons.1 h with rfl | h
        · simp
        · rcases List.mem_cons.1 h with rfl | h
          · simp
          · rcases List.mem_cons.1 h with rfl | h
            · simp
            · rcases List.mem_append.1 h with h | h
              · rcases List.mem_append.1 h with h | h
                · exact ⟨fun e => hnb.1 (by rw [← e]; exact h),
                    fun e => hnb.2.1 (by rw [← e]; exact h),
                    fun e => hnb.2.2 (by rw [← e]; exact h)⟩
                · rcases hAmem c h with h2 | h2
                  · exact ⟨fun e => hpb.1 (by rw [← e]; exact h2),
                      fun e => hpb.2.1 (by rw [← e]; exact h2),
                      fun e => hpb.2.2 (by rw [← e]; exact h2)⟩
                  · subst h2
                    simp
              · rcases hqp c h with h2 | h2
                · subst h2
                  simp
                · exact ⟨fun e => hqb.1 (by rw [← e]; exact h2),
                    fun e => hqb.2.1 (by rw [← e]; exact h2),
                    fun e => hqb.2.2 (by rw [← e]; exact h2)⟩
    simp [hcne.1, hcne.2.1, hcne.2.2]
  have hfrag : '#' ∉ addSlash p ++ (if q = [] then ([] : Str) else '?' :: q) := by
    intro hc
    rcases List.mem_append.1 hc with h | h
    · rcases hAmem _ h with h2 | h2
      · exact hpf h2
      · simp at h2
    · rcases hqp _ h with h2 | h2
      · simp at h2
      · exact hqf h2
  have hhead : ∀ c, (addSlash p ++ (if q = [] then ([] : Str) else '?' :: q)).head? = some c →
      netlocStop c = true := by
    intro c hc
    rw [List.head?_append_of_ne_nil _ hAne, hAhead] at hc
    rw [show c = '/' from (Option.some.inj hc).symm]
    rfl
  refine urlsplit_build _ dflt s ('/' :: '/' ::
      (n ++ addSlash p ++ (if q = [] then [] else '?' :: q))) n
      (addSlash p ++ (if q = [] then [] else '?' :: q)) (addSlash p) q [] ?_ ?_ ?_ ?_ ?_ ?_
  · rcases hs with rfl | rfl <;> rfl
  · exact List.filter_eq_self.2 hbad
  · intro d2
    rcases hs with rfl | rfl
    · exact splitScheme_http _ d2
    · exact splitScheme_https _ d2
  · rw [List.append_assoc]
    exact splitNetloc_cons n _ hnstop hhead
  · exact splitFragment_none _ hfrag
  · by_cases hq : q = []
    · subst hq
      rw [if_pos rfl]
      rw [List.append_nil]
      exact splitQuery_none _ (fun hc => by
        rcases hAmem _ hc with h2 | h2
        · exact hpq h2
        · simp at h2)
    · rw [if_neg hq]
      exact splitQuery_split _ _ (fun hc => by
        rcases hAmem _ hc with h2 | h2
        · exact hpq h2
        · simp at h2)

theorem canonicalizeParts_some (d : Str) (pp : UrlParts × Str) (v : Str)
    (h : canonicalizeParts d pp = some v) :
    (pp.1.scheme = "http".data ∨ pp.1.scheme = "https".data) ∧
    (pp.1.netloc = d ∨ List.IsSuffix ('.' :: d) pp.1.netloc) ∧
    v = urlunparse ⟨pp.1.scheme, pp.1.netloc, normPath pp.1.path, pp.1.query, []⟩ pp.2 := by
  unfold canonicalizeParts at h
  by_cases h1 : pp.1.scheme = "http".data ∨ pp.1.scheme = "https".data
  · rw [if_neg (not_not_intro h1)] at h
    by_cases h2 : pp.1.netloc = d ∨ List.IsSuffix ('.' :: d) pp.1.netloc
    · rw [if_neg (not_not_intro h2)] at h
      exact ⟨h1, h2, (Option.some.inj h).symm⟩
    · rw [if_pos h2] at h
      exact absurd h (by simp)
  · rw [if_pos h1] at h
    exact absurd h (by simp)

theorem canonical_roundtrip (d : Str) (pp : UrlParts × Str) (v : Str) (hd : d ≠ [])
    (hgood : goodParts pp.1) (h : canonicalizeParts d pp = some v) (hsemi : ';' ∉ v) :
    v ≠ [] ∧ invalidScheme v = false ∧ (∀ b, urljoin b v = v) ∧
      canonicalizeParts d (urlparse v []) = some v := by
  obtain ⟨P, params⟩ := pp
  obtain ⟨s, n, p0, q, f⟩ := P
  obtain ⟨hsch, hnetc, hv⟩ := canonicalizeParts_some d _ v h
  simp only at hsch hnetc hv
  obtain ⟨⟨hn1, hn2, hn3⟩, ⟨hpq0, hpf0⟩, hqf, hnb, hpb0, hqb⟩ := hgood
  simp only at hn1 hn2 hn3 hpq0 hpf0 hqf hnb hpb0 hqb
  have hparams : params = [] := by
    by_contra hne
    apply hsemi
    rw [hv]
    unfold urlunparse
    rw [if_pos hne]
    exact mem_urlunsplit_path _ (by simp)
  subst hparams
  rw [urlunparse_nil] at hv
  have hn_ne : n ≠ [] := by
    rcases hnetc with h2 | h2
    · rw [h2]
      exact hd
    · obtain ⟨t, ht⟩ := h2
      rw [← ht]
      simp
  have hs_ne : s ≠ [] := by
    rcases hsch with h2 | h2 <;> simp [h2]
  have hp3ne := normPath_ne_nil p0
  have hp3noDS := normPath_noDS p0
  have hp3last := normPath_last p0
  have hmem3 := normPath_mem p0
  have hp3q : '?' ∉ normPath p0 := fun hc => by
    rcases hmem3 _ hc with h2 | h2
    · exact hpq0 h2
    · simp at h2
  have hp3f : '#' ∉ normPath p0 := fun hc => by
    rcases hmem3 _ hc with h2 | h2
    · exact hpf0 h2
    · simp at h2
  have hp3b : '\t' ∉ normPath p0 ∧ '\r' ∉ normPath p0 ∧ '\n' ∉ normPath p0 := by
    refine ⟨fun hc => ?_, fun hc => ?_, fun hc => ?_⟩ <;>
      rcases hmem3 _ hc with h2 | h2
    · exact hpb0.1 h2
    · simp at h2
    · exact hpb0.2.1 h2
    · simp at h2
    · exact hpb0.2.2 h2
    · simp at h2
  have hnstop : ∀ c ∈ n, netlocStop c = false := by
    intro c hc
    by_cases h2 : netlocStop c = true
    · exfalso
      simp only [netlocStop, Bool.or_eq_true, beq_iff_eq] at h2
      rcases h2 with (h2 | h2) | h2
      · exact hn1 (by rw [← h2]; exact hc)
      · exact hn2 (by rw [← h2]; exact hc)
      · exact hn3 (by rw [← h2]; exact hc)
    · exact eq_false_of_ne_true h2
  have hUNS := urlunsplit_eq s n (normPath p0) q hs_ne hn_ne
  rw [hUNS] at hv
  have hsplitv : ∀ dflt, urlsplit v dflt = ⟨s, n, addSlash (normPath p0), q, []⟩ := by
    intro dflt
    rw [hv]
    exact urlsplit_reparse s n (normPath p0) q dflt hsch hnstop
      ⟨hnb.1, hnb.2.1, hnb.2.2⟩ hp3ne hp3q hp3f hp3b hqf ⟨hqb.1, hqb.2.1, hqb.2.2⟩
  have hsemi_p : ';' ∉ addSlash (normPath p0) := by
    intro hc
    apply hsemi
    rw [hv]
    refine List.mem_append_right _ ?_
    simp [List.mem_append, hc]
  have hparsev : ∀ dflt, urlparse v dflt = (⟨s, n, addSlash (normPath p0), q, []⟩, []) := by
    intro dflt
    rw [urlparse_of_no_semi v dflt (by rw [hsplitv dflt]; exact hsemi_p), hsplitv dflt]
  have hA_eq : urlunsplit ⟨s, n, addSlash (normPath p0), q, []⟩ = v := by
    rw [urlunsplit_eq s n (addSlash (normPath p0)) q hs_ne hn_ne, addSlash_idem, hv]
  have hv_ne : v ≠ [] := by
    rw [hv]
    rcases hsch with rfl | rfl <;> simp
  refine ⟨hv_ne, ?_, ?_, ?_⟩
  · rcases hsch with rfl | rfl
    · rw [show v = 'h' :: ('t' :: 't' :: 'p' :: ':' :: '/' :: '/' ::
        (n ++ addSlash (normPath p0) ++ (if q = [] then [] else '?' :: q))) from hv]
      exact invalidScheme_cons_h _
    · rw [show v = 'h' :: ('t' :: 't' :: 'p' :: 's' :: ':' :: '/' :: '/' ::
        (n ++ addSlash (normPath p0) ++ (if q = [] then [] else '?' :: q))) from hv]
      exact invalidScheme_cons_h _
  · intro b
    unfold urljoin
    by_cases hb : b = []
    · rw [if_pos hb]
    · rw [if_neg hb, if_neg hv_ne]
      dsimp only
      rw [hparsev]
      dsimp only
      by_cases hbs : s = (urlparse b []).1.scheme
      · rw [if_neg (by
          rw [← hbs]
          push_neg
          refine ⟨rfl, ?_⟩
          rcases hsch with rfl | rfl <;> decide)]
        rw [if_pos ⟨by rcases hsch with rfl | rfl <;> decide, hn_ne⟩]
        rw [urlunparse_nil]
        exact hA_eq
      · rw [if_pos (Or.inl (fun he => hbs he))]
  · rw [hparsev []]
    unfold canonicalizeParts
    dsimp only
    rw [if_neg (not_not_intro hsch), if_neg (not_not_intro hnetc)]
    have hfix : normPath (addSlash (normPath p0)) = addSlash (normPath p0) := by
      refine normPath_fix _ (addSlash_noDS _ hp3noDS) (addSlash_ne_nil _ hp3ne) ?_
      rcases hp3last with h2 | h2
      · left
        rw [h2]
        rfl
      · right
        rw [addSlash_getLast _ hp3ne]
        exact h2
    rw [urlunparse_nil, hfix, hA_eq]

/-! ### Invariants of the flow enumeration loop -/

theorem flow_loop_count (graph : Str → List Str) (md mf : Nat) :
    ∀ stack flows seen, flows.length ≤ mf →
      (flow_loop graph md mf stack flows seen).length ≤ mf := by
  intro stack flows seen
  induction stack, flows, seen using flow_loop.induct graph md mf with
  | case1 flows seen =>
    intro h
    rw [flow_loop]
    exact h
  | case2 current path rest flows seen h1 =>
    intro h
    rw [flow_loop, dif_pos h1]
    exact h
  | case3 current path rest flows seen h1 h2 ih =>
    intro h
    rw [flow_loop, dif_neg h1, if_pos h2]
    refine ih ?_
    simp only [List.length_append, List.length_singleton]
    omega
  | case4 current path rest flows seen h1 h2 h3 =>
    intro h
    rw [flow_loop, dif_neg h1, if_neg h2, dif_pos h3]
    exact h
  | case5 current path rest flows seen h1 h2 h3 ih =>
    intro h
    rw [flow_loop, dif_neg h1, if_neg h2, dif_neg h3]
    exact ih h

theorem flow_loop_nodup (graph : Str → List Str) (md mf : Nat) :
    ∀ stack flows seen,
      (∀ p ∈ stack, (Prod.snd p).Nodup) → (∀ f ∈ flows, f.Nodup) →
      ∀ f ∈ flow_loop graph md mf stack flows seen, f.Nodup := by
  intro stack flows seen
  induction stack, flows, seen using flow_loop.induct graph md mf with
  | case1 flows seen =>
    intro _ hf
    rw [flow_loop]
    exact hf
  | case2 current path rest flows seen h1 =>
    intro _ hf
    rw [flow_loop, dif_pos h1]
    exact hf
  | case3 current path rest flows seen h1 h2 ih =>
    intro hs hf
    rw [flow_loop, dif_neg h1, if_pos h2]
    refine ih (fun p hp => hs p (List.mem_cons_of_mem _ hp)) ?_
    intro f hfm
    rcases List.mem_append.1 hfm with h | h
    · exact hf f h
    · rw [show f = path from List.mem_singleton.1 h]
      exact hs (current, path) (List.mem_cons_self _ _)
  | case4 current path rest flows seen h1 h2 h3 =>
    intro _ hf
    rw [flow_loop, dif_neg h1, if_neg h2, dif_pos h3]
    exact hf
  | case5 current path rest flows seen h1 h2 h3 ih =>
    intro hs hf
    rw [flow_loop, dif_neg h1, if_neg h2, dif_neg h3]
    refine ih ?_ hf
    intro p hp
    rcases List.mem_append.1 hp with h | h
    · rw [List.mem_reverse] at h
      rcases List.mem_map.1 h with ⟨n, hn, rfl⟩
      have hn2 := List.of_mem_filter hn
      have hpath := hs (current, path) (List.mem_cons_self _ _)
      simp only [decide_eq_true_eq] at hn2
      simpa [List.nodup_append] using ⟨hpath, hn2⟩
    · exact hs p (List.mem_cons_of_mem _ h)

theorem flow_loop_maxlen (graph : Str → List Str) (md mf : Nat) :
    ∀ stack flows seen,
      (∀ p ∈ stack, (Prod.snd p).length ≤ md + 1) →
      (∀ f ∈ flows, f.length ≤ md + 1) →
      ∀ f ∈ flow_loop graph md mf stack flows seen, f.length ≤ md + 1 := by
  intro stack flows seen
  induction stack, flows, seen using flow_loop.induct graph md mf with
  | case1 flows seen =>
    intro _ hf
    rw [flow_loop]
    exact hf
  | case2 current path rest flows seen h1 =>
    intro _ hf
    rw [flow_loop, dif_pos h1]
    exact hf
  | case3 current path rest flows seen h1 h2 ih =>
    intro hs hf
    rw [flow_loop, dif_neg h1, if_pos h2]
    refine ih (fun p hp => hs p (List.mem_cons_of_mem _ hp)) ?_
    intro f hfm
    rcases List.mem_append.1 hfm with h | h
    · exact hf f h
    · rw [show f = path from List.mem_singleton.1 h]
      exact hs (current, path) (List.mem_cons_self _ _)
  | case4 current path rest flows seen h1 h2 h3 =>
    intro _ hf
    rw [flow_loop, dif_neg h1, if_neg h2, dif_pos h3]
    exact hf
  | case5 current path rest flows seen h1 h2 h3 ih =>
    intro hs hf
    rw [flow_loop, dif_neg h1, if_neg h2, dif_neg h3]
    refine ih ?_ hf
    intro p hp
    rcases List.mem_append.1 hp with h | h
    · rw [List.mem_reverse] at h
      rcases List.mem_map.1 h with ⟨n, hn, rfl⟩
      have hdepth : ¬ md ≤ path.length - 1 := fun hc => h2 (Or.inl hc)
      simp only [List.length_append, List.length_singleton]
      omega
    · exact hs p (List.mem_cons_of_mem _ h)

/-! ### Invariants of the crawl loop -/

theorem graphAdd_mem (url link : Str) :
    ∀ g kv, kv ∈ graphAdd url link g → kv.1 = url ∨ kv.1 ∈ g.map Prod.fst := by
  intro g
  induction g with
  | nil =>
    intro kv h
    simp only [graphAdd, List.mem_singleton] at h
    left
    rw [h]
  | cons p rest ih =>
    intro kv h
    obtain ⟨k, s⟩ := p
    simp only [graphAdd] at h
    by_cases hk : k = url
    · rw [if_pos hk] at h
      rcases List.mem_cons.1 h with h2 | h2
      · left
        rw [h2, hk]
      · right
        exact List.mem_map_of_mem Prod.fst (List.mem_cons_of_mem _ h2)
    · rw [if_neg hk] at h
      rcases List.mem_cons.1 h with h2 | h2
      · right
        rw [h2]
        exact List.mem_map_of_mem Prod.fst (List.mem_cons_self _ _)
      · rcases ih kv h2 with h3 | h3
        · exact Or.inl h3
        · right
          simp only [List.map_cons]
          exact List.mem_cons_of_mem _ h3

theorem processLinks_graph (mp : Nat) (url : Str) (depth : Nat) (vis : List Str)
    (P : Str → Prop) (hurl : P url) :
    ∀ ls queue graph, (∀ kv ∈ graph, P kv.1) →
      ∀ kv ∈ (processLinks mp url depth vis ls queue graph).2, P kv.1 := by
  intro ls
  induction ls with
  | nil =>
    intro q g hg kv h
    simpa only [processLinks] using hg kv h
  | cons l ls ih =>
    intro q g hg kv h
    rw [processLinks] at h
    refine ih _ _ ?_ kv h
    intro kv2 h2
    rcases graphAdd_mem url l g kv2 h2 with h3 | h3
    · rw [h3]
      exact hurl
    · rcases List.mem_map.1 h3 with ⟨x, hx, hx2⟩
      rw [← hx2]
      exact hg x hx

theorem crawl_loop_budget (links : Str → List Str) (dom : Str) (mp : Nat) :
    ∀ queue visited graph, visited.length ≤ mp →
      (crawl_loop links dom mp queue visited graph).visited.length ≤ mp := by
  intro queue visited graph
  induction queue, visited, graph using crawl_loop.induct links dom mp with
  | case1 visited graph =>
    intro h
    rw [crawl_loop]
    exact h
  | case2 url depth rest visited graph h1 =>
    intro h
    rw [crawl_loop, dif_pos h1]
    exact h
  | case3 url depth rest visited graph h1 h2 ih =>
    intro h
    rw [crawl_loop, dif_neg h1, if_pos h2]
    exact ih h
  | case4 url depth rest visited graph h1 h2 ih =>
    intro h
    rw [crawl_loop, dif_neg h1, if_neg h2]
    refine ih ?_
    simp only [List.length_append, List.length_singleton]
    omega

theorem crawl_loop_keys (links : Str → List Str) (dom : Str) (mp : Nat) :
    ∀ queue visited graph, (∀ kv ∈ graph, kv.1 ∈ visited) →
      ∀ kv ∈ (crawl_loop links dom mp queue visited graph).graph,
        kv.1 ∈ (crawl_loop links dom mp queue visited graph).visited := by
  intro queue visited graph
  induction queue, visited, graph using crawl_loop.induct links dom mp with
  | case1 visited graph =>
    intro h
    rw [crawl_loop]
    exact h
  | case2 url depth rest visited graph h1 =>
    intro h
    rw [crawl_loop, dif_pos h1]
    exact h
  | case3 url depth rest visited graph h1 h2 ih =>
    intro h
    rw [crawl_loop, dif_neg h1, if_pos h2]
    exact ih h
  | case4 url depth rest visited graph h1 h2 ih =>
    intro h
    rw [crawl_loop, dif_neg h1, if_neg h2]
    refine ih ?_
    intro kv hkv
    refine processLinks_graph mp url depth (visited ++ [url]) (· ∈ visited ++ [url])
      (by simp) _ rest graph ?_ kv hkv
    intro kv2 h2
    exact List.mem_append_left _ (h kv2 h2)

/-! ### Concrete evaluations used by scenario claims and witnesses -/

theorem cycle_flows_nil : ∀ mf, generate_flows cycleGraph exDomain exA 3 mf = [] := by
  intro mf
  have h0 : normalize_url exDomain exA exA = some exA := by decide
  simp only [generate_flows, h0]
  rw [if_neg (by decide)]
  rcases Nat.eq_zero_or_pos mf with rfl | hmf
  · rw [flow_loop, dif_pos (by simp)]
  · rw [flow_loop, dif_neg (by simp; omega), if_neg (by decide), dif_neg (by omega)]
    rw [show ((((sortLex (cycleGraph exA)).filter (fun n => n ∉ [exA])).map
      (fun n => (n, [exA] ++ [n]))).reverse ++ [] : List (Str × List Str))
      = [(exB, [exA, exB])] from by decide]
    rw [flow_loop, dif_neg (by simp; omega), if_neg (by decide), dif_neg (by omega)]
    rw [show ((((sortLex (cycleGraph exB)).filter (fun n => n ∉ [exA, exB])).map
      (fun n => (n, [exA, exB] ++ [n]))).reverse ++ [] : List (Str × List Str))
      = [] from by decide]
    rw [flow_loop]

theorem emptyGraph_flows : generate_flows emptyGraph exDomain exA 5 10 = [[exA]] := by
  have h0 : normalize_url exDomain exA exA = some exA := by decide
  simp only [generate_flows, h0]
  rw [if_neg (by decide)]
  rw [flow_loop, dif_neg (by decide), if_pos (by decide)]
  rw [flow_loop]
  decide

theorem crawl_run_eval : crawl_site exLinks exDomain exA 1 = ⟨[exA], [(exA, [exB])]⟩ := by
  unfold crawl_site
  rw [show (if "http".data.isPrefixOf exA then exA else "https://".data ++ exA) = exA
    from by decide]
  unfold crawl_main
  rw [show crawl_domain exDomain exA = exDomain from by decide,
      show seedNorm exDomain exA = exA from by decide]
  rw [crawl_loop, dif_neg (by decide), if_neg (by decide)]
  rw [show processLinks 1 exA 0 ([] ++ [exA])
      (pageLinks exLinks exDomain ([] ++ [exA]) exA) [] []
      = ([], [(exA, [exB])]) from by decide]
  show crawl_loop exLinks exDomain 1 [] ([] ++ [exA]) [(exA, [exB])] = _
  rw [crawl_loop]
  decide

/-! ### Claims -/

/-- C1 counterexample: on the two-node cyclic graph (A ↔ B) with maxDepth 3
and the default maxFlows 10000, `generate_flows` does NOT return the single
flow [A, B] claimed by the spec. -/
theorem c1_counterexample :
    generate_flows cycleGraph exDomain exA 3 10000 ≠ [[exA, exB]] := by
  rw [cycle_flows_nil 10000]
  decide

/-- C1 amended: on the two-node cyclic graph (A ↔ B) with maxDepth 3 the
enumerator terminates and returns NO flows at all, for every maxFlows
budget: when B is expanded its only neighbour A is already on the path, so
nothing is pushed and the path [A, B] is abandoned rather than emitted. -/
theorem c1_cycle_flows : ∀ mf, generate_flows cycleGraph exDomain exA 3 mf = [] :=
  cycle_flows_nil

/-- C3 counterexample: a whitespace-only raw link is NOT rejected: it is
stripped to the empty string, which `urljoin` resolves to the base URL, so
canonicalization returns the normalized base instead of absent. -/
theorem c3_counterexample :
    normalize_url exDomain "https://example.com/a".data " ".data
      = some "https://example.com/a".data := by
  decide

/-- C3 amended: canonicalization returns absent whenever the raw link is
the empty string (for every configured domain and base URL); whitespace-only
input is instead stripped to empty and resolved to the base. -/
theorem c3_empty_rejected : ∀ domain base, normalize_url domain base [] = none := by
  intro domain base
  rfl

/-- C4: for every link oracle, previous domain, seed and page budget, the
visited set at completion of the crawl holds at most `max_pages` pages. -/
theorem c4_visited_le_budget :
    ∀ links prevDomain startUrl maxPages,
      (crawl_site links prevDomain startUrl maxPages).visited.length ≤ maxPages := by
  intro links prevDomain startUrl maxPages
  unfold crawl_site crawl_main
  exact crawl_loop_budget links _ maxPages _ [] [] (by simp)

/-- C5: every key of the crawl graph produced by `crawl_site` is a member
of the visited set at completion. -/
theorem c5_graph_keys_visited :
    ∀ links prevDomain startUrl maxPages,
      ∀ kv ∈ (crawl_site links prevDomain startUrl maxPages).graph,
        kv.1 ∈ (crawl_site links prevDomain startUrl maxPages).visited := by
  intro links prevDomain startUrl maxPages
  unfold crawl_site crawl_main
  exact crawl_loop_keys links _ maxPages _ [] [] (by simp)

/-- C5 witness: in the concrete budget-1 run, `(A, {B})` is a graph entry
and its key A is indeed in the visited set. -/
theorem c5_witness :
    (exA, [exB]) ∈ (crawl_site exLinks exDomain exA 1).graph ∧
      exA ∈ (crawl_site exLinks exDomain exA 1).visited := by
  constructor
  · rw [crawl_run_eval]
    decide
  · exact c5_graph_keys_visited exLinks exDomain exA 1 (exA, [exB])
      (by rw [crawl_run_eval]; decide)

/-- C6: no flow emitted by `generate_flows` contains a repeated node, for
every graph, domain, seed, depth bound and flow budget. -/
theorem c6_flows_nodup :
    ∀ graph domain startUrl maxDepth maxFlows,
      ∀ f ∈ generate_flows graph domain startUrl maxDepth maxFlows, f.Nodup := by
  intro graph domain startUrl maxDepth maxFlows
  unfold generate_flows
  cases hn : normalize_url domain startUrl startUrl with
  | none => simp
  | some start =>
    dsimp only
    by_cases hs : start = []
    · rw [if_pos hs]
      simp
    · rw [if_neg hs]
      refine flow_loop_nodup graph maxDepth maxFlows _ [] 0 ?_ (by simp)
      intro p hp
      rw [show p = (start, [start]) from List.mem_singleton.1 hp]
      simp

/-- C6 witness: the concrete flow [A] of the edgeless graph is emitted and
duplicate-free. -/
theorem c6_witness :
    [exA] ∈ generate_flows emptyGraph exDomain exA 5 10 ∧ ([exA] : List Str).Nodup := by
  refine ⟨by rw [emptyGraph_flows]; decide, ?_⟩
  exact c6_flows_nodup emptyGraph exDomain exA 5 10 [exA] (by rw [emptyGraph_flows]; decide)

/-- C7: every flow emitted by `generate_flows` has at most `maxDepth + 1`
nodes, for every graph, domain, seed, depth bound and flow budget. -/
theorem c7_flow_length :
    ∀ graph domain startUrl maxDepth maxFlows,
      ∀ f ∈ generate_flows graph domain startUrl maxDepth maxFlows,
        f.length ≤ maxDepth + 1 := by
  intro graph domain startUrl maxDepth maxFlows
  unfold generate_flows
  cases hn : normalize_url domain startUrl startUrl with
  | none => simp
  | some start =>
    dsimp only
    by_cases hs : start = []
    · rw [if_pos hs]
      simp
    · rw [if_neg hs]
      refine flow_loop_maxlen graph maxDepth maxFlows _ [] 0 ?_ (by simp)
      intro p hp
      rw [show p = (start, [start]) from List.mem_singleton.1 hp]
      simp

/-- C7 witness: the concrete flow [A] of the edgeless graph is emitted and
has 1 ≤ 5 + 1 nodes. -/
theorem c7_witness :
    [exA] ∈ generate_flows emptyGraph exDomain exA 5 10 ∧
      ([exA] : List Str).length ≤ 5 + 1 := by
  refine ⟨by rw [emptyGraph_flows]; decide, ?_⟩
  exact c7_flow_length emptyGraph exDomain exA 5 10 [exA] (by rw [emptyGraph_flows]; decide)

/-- C8: `generate_flows` never returns more than `maxFlows` flows, for
every graph, domain, seed, depth bound and flow budget. -/
theorem c8_flow_count :
    ∀ graph domain startUrl maxDepth maxFlows,
      (generate_flows graph domain startUrl maxDepth maxFlows).length ≤ maxFlows := by
  intro graph domain startUrl maxDepth maxFlows
  unfold generate_flows
  cases hn : normalize_url domain startUrl startUrl with
  | none => simp
  | some start =>
    dsimp only
    by_cases hs : start = []
    · rw [if_pos hs]
      simp
    · rw [if_neg hs]
      exact flow_loop_count graph maxDepth maxFlows _ [] 0 (by simp)

/-- C9 counterexample: the code derives the crawl domain with
`netloc.replace("www.", "")`, which removes EVERY occurrence of `"www."`,
not only a leading label: for the seed host `a.www.example.com` the code
yields `a.example.com`, while stripping only a leading `www.` label would
leave the host unchanged. -/
theorem c9_counterexample :
    seedHost initDomain "https://a.www.example.com".data = "a.www.example.com".data ∧
    crawl_domain initDomain "https://a.www.example.com".data = "a.example.com".data ∧
    crawl_domain initDomain "https://a.www.example.com".data
      ≠ stripLeadingWww (seedHost initDomain "https://a.www.example.com".data) := by
  refine ⟨by decide, by decide, by decide⟩

/-- C9 amended: the effective crawl domain is the seed's host with every
occurrence of the substring `"www."` removed (Python `str.replace`), so
`example.com` and `www.example.com` seeds still yield the same effective
domain `example.com`, but a host with a non-leading `www.` is altered
beyond its leading label. -/
theorem c9_domain_amended :
    (∀ prevDomain s1, crawl_domain prevDomain s1 = replaceWww (seedHost prevDomain s1)) ∧
    crawl_domain initDomain "https://example.com/".data = exDomain ∧
    crawl_domain initDomain "https://www.example.com/".data = exDomain ∧
    crawl_domain initDomain "https://a.www.example.com".data = "a.example.com".data := by
  refine ⟨fun prevDomain s1 => rfl, by decide, by decide, by decide⟩

/-- C10: a seed not beginning with `"http"` is prefixed with `"https://"`
before seed canonicalization, domain derivation and frontier insertion
(which `crawl_main` performs), and a seed already beginning with `"http"`
is passed to `crawl_main` unchanged. -/
theorem c10_seed_scheme :
    ∀ links prevDomain startUrl maxPages,
      ("http".data.isPrefixOf startUrl = false →
        crawl_site links prevDomain startUrl maxPages
          = crawl_main links prevDomain ("https://".data ++ startUrl) maxPages) ∧
      ("http".data.isPrefixOf startUrl = true →
        crawl_site links prevDomain startUrl maxPages
          = crawl_main links prevDomain startUrl maxPages) := by
  intro links prevDomain startUrl maxPages
  constructor
  · intro h
    simp [crawl_site, h]
  · intro h
    simp [crawl_site, h]

/-- C10 witness: the bare seed `example.com` is crawled exactly as
`https://example.com`. -/
theorem c10_witness :
    crawl_site exLinks exDomain "example.com".data 1
      = crawl_main exLinks exDomain "https://example.com".data 1 :=
  (c10_seed_scheme exLinks exDomain "example.com".data 1).1 (by decide)

/-- C2 counterexample: canonicalization is not idempotent, in two ways.
First, the raw link `/a #f` (a space before the fragment) canonicalizes to
`https://example.com/a ` with a trailing space; canonicalizing that result
again strips the space and yields a different string.  Second, the
whitespace-free raw link `/a/;b/` canonicalizes to
`https://example.com/a/;b` (the `;b` is not path-parameters here, so the
trailing slash strip leaves `/a/;b`); canonicalizing that result again
re-parses `;b` as path-parameters of the last segment, strips the now
trailing slash of `/a/`, and yields `https://example.com/a;b`. -/
theorem c2_counterexample :
    (normalize_url exDomain "https://example.com/".data "/a #f".data
        = some "https://example.com/a ".data ∧
      normalize_url exDomain "https://example.com/".data "https://example.com/a ".data
        = some "https://example.com/a".data ∧
      ("https://example.com/a".data : Str) ≠ "https://example.com/a ".data) ∧
    (normalize_url exDomain "https://example.com/".data "/a/;b/".data
        = some "https://example.com/a/;b".data ∧
      normalize_url exDomain "https://example.com/".data "https://example.com/a/;b".data
        = some "https://example.com/a;b".data ∧
      ("https://example.com/a;b".data : Str) ≠ "https://example.com/a/;b".data) := by
  exact ⟨⟨by decide, by decide, by decide⟩, ⟨by decide, by decide, by decide⟩⟩

/-- C2 amended: for every nonempty configured domain, canonicalization is
idempotent on every result that carries no leading or trailing whitespace
(`pyStrip v = v`) and contains no semicolon (a semicolon in the result can
be re-read by `urlparse` as a path-parameter separator of the last path
segment, as the second counterexample shows): if `canonicalize(base, x)`
returns such a `v`, then `canonicalize(base, v)` returns `v` again. -/
theorem c2_idempotent_amended :
    ∀ domain base x v, domain ≠ [] → normalize_url domain base x = some v →
      pyStrip v = v → ';' ∉ v → normalize_url domain base v = some v := by
  intro d b x v hd h hst hsemi
  unfold normalize_url at h
  by_cases hx0 : x = []
  · rw [if_pos hx0] at h
    exact absurd h (by simp)
  rw [if_neg hx0] at h
  by_cases hx1 : invalidScheme (pyStrip x) = true
  · rw [if_pos hx1] at h
    exact absurd h (by simp)
  rw [if_neg hx1] at h
  obtain ⟨hv_ne, hinv, hjoin, hcp⟩ :=
    canonical_roundtrip d (urlparse (urljoin b (pyStrip x)) []) v hd
      (urlparse_good _ _) h hsemi
  unfold normalize_url
  rw [if_neg hv_ne, hst]
  rw [if_neg (by simp [hinv])]
  rw [hjoin b]
  exact hcp

/-- C2 witness: `/a` canonicalizes against `https://example.com/` to
`https://example.com/a`, which carries no whitespace and no semicolon and
canonicalizes to itself. -/
theorem c2_witness : normalize_url exDomain "https://example.com/".data
    "https://example.com/a".data = some "https://example.com/a".data :=
  c2_idempotent_amended exDomain "https://example.com/".data "/a".data
    "https://example.com/a".data (by decide) (by decide) (by decide) (by decide)

end Crawler
